import Mathlib

/-!
Verification of the macOS code-signing engine (`scripts/lib/sign-macos.ts`).

The development shallowly embeds the signing script's core:
* path classification (`isBundleExecutable`),
* the recursive bundle walker (`findFilesToSign`),
* the Mach-O magic-number detector,
* entitlement/launch-constraint resolution in the signing loop,
* the launch-constraint environment evaluator (`evaluateConstraints`),
* the pre-signing removal phase, and
* the notarization decision.

Paths appear in two guises, mirroring the source: as plain strings (the
source splits on the path separator and calls `String.prototype.endsWith`
on the whole path), and as component lists for the walker, where a name
list `[a, b, c]` stands for the path string `a/b/c`.  The bridge between
the two views is proved, not assumed.
-/

namespace SignMacos

/-- The path separator character used by `path.sep` on macOS. -/
def sep : Char := '/'

/-- Auxiliary splitter: consumes characters, accumulating the current
component (in reverse); mirrors `String.prototype.split('/')`. -/
def splitCharsAux : List Char → List Char → List (List Char)
  | [], acc => [acc.reverse]
  | c :: cs, acc =>
    if c = sep then acc.reverse :: splitCharsAux cs [] else splitCharsAux cs (c :: acc)

/-- `fullPath.split(path.sep)` from the source, at the character level. -/
def splitChars (cs : List Char) : List (List Char) := splitCharsAux cs []

/-- Join components with `'/'`; left inverse of `splitChars`. -/
def joinSep : List (List Char) → List Char
  | [] => []
  | [p] => p
  | p :: ps => p ++ sep :: joinSep ps

/-- Join a reversed component list (last component first). -/
def joinRev : List (List Char) → List Char
  | [] => []
  | [p] => p
  | p :: ps => joinRev ps ++ sep :: p

/-- The app-bundle / framework-bundle executable test of `isBundleExecutable`,
after the path has been split (`parts` is the reversed component list, `cs`
the full path's characters).  Mirrors the source:
the first guard is `fullPath.endsWith(parts[0] + '.app/Contents/MacOS/' + parts[0])`
(a test on the whole string, provided at least four components exist), the
second is `parts[3] === parts[0] + '.framework' && parts[2] === 'Versions'`. -/
def bundleExecAux : List (List Char) → List Char → Bool
  | p0 :: _p1 :: p2 :: p3 :: _, cs =>
    (p0 ++ ".app/Contents/MacOS/".data ++ p0).isSuffixOf cs
      || (p3 == p0 ++ ".framework".data && p2 == "Versions".data)
  | _, _ => false

/-- `isBundleExecutable` from `sign-macos.ts`: split the full path on the
path separator, reverse, and test the two bundle-executable patterns. -/
def isBundleExecutable (fullPath : String) : Bool :=
  bundleExecAux (splitChars fullPath.data).reverse fullPath.data

/-- The classifier as the spec's sentences describe it: the last four path
components are literally `<Name>.app / Contents / MacOS / <Name>` with the
same `<Name>` at both ends, or the framework pattern
`<Name>.framework / Versions / <anything> / <Name>`. -/
def specBundleExecAux : List (List Char) → Bool
  | p0 :: p1 :: p2 :: p3 :: _ =>
    (p3 == p0 ++ ".app".data && p2 == "Contents".data && p1 == "MacOS".data)
      || (p3 == p0 ++ ".framework".data && p2 == "Versions".data)
  | _ => false

/-- Spec-described classifier on a full path string. -/
def specIsBundleExecutable (fullPath : String) : Bool :=
  specBundleExecAux (splitChars fullPath.data).reverse

/-- Amended classifier: like the spec's description, except that in the
application pattern the `.app` directory's name need only END with
`<Name>.app` (this is what the source's string-level `endsWith` check
actually tests). -/
def amendedBundleExecAux : List (List Char) → Bool
  | p0 :: p1 :: p2 :: p3 :: _ =>
    ((p0 ++ ".app".data).isSuffixOf p3 && p2 == "Contents".data && p1 == "MacOS".data)
      || (p3 == p0 ++ ".framework".data && p2 == "Versions".data)
  | _ => false

/-- Amended classifier on a full path string. -/
def amendedIsBundleExecutable (fullPath : String) : Bool :=
  amendedBundleExecAux (splitChars fullPath.data).reverse

/-- Join path components into the path string they denote. -/
def joinPath (p : List String) : String := String.mk (joinSep (p.map String.data))

/-- `s.endsWith(suffix)` from the source, at the character level. -/
def endsWithStr (s suffix : String) : Bool := suffix.data.isSuffixOf s.data

/-- A node of the bundle tree: regular file (with `none` as content when
opening/reading the file fails), directory, or symbolic link. -/
inductive Entry : Type where
  | file (name : String) (content : Option (List Nat))
  | dir (name : String) (children : List Entry)
  | symlink (name : String)

/-- The `name` of a directory entry. -/
def Entry.name : Entry → String
  | .file n _ => n
  | .dir n _ => n
  | .symlink n => n

/-- `buffer.readUInt32BE()` after `file.read` filled a zero-initialized
four-byte buffer with the file's first bytes. -/
def readUInt32BE (bs : List Nat) : Nat :=
  ((bs.getD 0 0 * 256 + bs.getD 1 0) * 256 + bs.getD 2 0) * 256 + bs.getD 3 0

/-- The Mach-O header test of `findFilesToSign`: a readable file is kept
iff its big-endian 32-bit header is one of the two 64-bit Mach-O magic
values; a failed read (`none`) means "no need to sign", not an error. -/
def machOMagic : Option (List Nat) → Bool
  | none => false
  | some bs => readUInt32BE bs == 0xFEEDFACF || readUInt32BE bs == 0xCFFAEDFE

/-- Trailing step of `findFilesToSign`: after all children of `dir` were
processed, yield `dir` itself when its path ends in `.app` or `.framework`
and the `codesign --verify` presence check (`signed`) fails on it. -/
def bundleYield (signed : List String → Bool) (dir : List String) : List (List String) :=
  if endsWithStr (joinPath dir) ".app" || endsWithStr (joinPath dir) ".framework" then
    if signed dir then [] else [dir]
  else []

mutual
/-- One iteration of `findFilesToSign`'s loop over `readdir` entries:
symlinks are skipped, directories are recursed into (and then skipped by
the `isFile` test), and regular files pass the bundle-executable filter,
the Mach-O filter, and the already-signed filter before being yielded. -/
def walkEntry (signed : List String → Bool) (dir : List String) : Entry → List (List String)
  | .symlink _ => []
  | .dir name children =>
    walkList signed (dir ++ [name]) children ++ bundleYield signed (dir ++ [name])
  | .file name content =>
    if isBundleExecutable (joinPath (dir ++ [name])) then []
    else if machOMagic content then
      (if signed (dir ++ [name]) then [] else [dir ++ [name]])
    else []

/-- `findFilesToSign`'s loop over the entries of one directory. -/
def walkList (signed : List String → Bool) (dir : List String) : List Entry → List (List String)
  | [] => []
  | e :: es => walkEntry signed dir e ++ walkList signed dir es
end

/-- `findFilesToSign(dir)` for the directory at path `dir` (as components)
holding `children`: process all entries, then the trailing bundle check. -/
def findFilesToSign (signed : List String → Bool) (dir : List String)
    (children : List Entry) : List (List String) :=
  walkList signed dir children ++ bundleYield signed dir

mutual
/-- Well-formedness of a tree node, as a real directory tree satisfies it:
the children of any directory carry pairwise-distinct names. -/
def wfEntry : Entry → Bool
  | .dir _ children => wfList children
  | _ => true

/-- Well-formedness of a sibling list. -/
def wfList : List Entry → Bool
  | [] => true
  | e :: es => wfEntry e && !((es.map Entry.name).contains e.name) && wfList es
end

/-- `q` lies strictly underneath the directory `p`, by path containment. -/
def strictlyUnder (q p : List String) : Prop := p <+: q ∧ p ≠ q

/-- No yielded path is followed by a yielded path strictly underneath it:
descendants always come first. -/
def bottomUpOrder (L : List (List String)) : Prop :=
  List.Pairwise (fun p q => ¬ strictlyUnder q p) L

/-! ### SHA-256 and base64url

The signing loop names entitlement/constraint files after
`createHash('sha256').update(relPath, 'utf-8').digest('base64url')`.
The algorithm below is FIPS 180-4 SHA-256 over the UTF-8 bytes of the
path, with 32-bit words represented as `Nat` reduced mod `2 ^ 32`. -/

/-- Truncate to a 32-bit word. -/
def w32 (n : Nat) : Nat := n % 4294967296

/-- Right-rotation of a 32-bit word. -/
def rotr32 (n x : Nat) : Nat := w32 ((x >>> n) ||| (x <<< (32 - n)))

/-- Bitwise complement of a 32-bit word. -/
def not32 (x : Nat) : Nat := 4294967295 ^^^ x

/-- SHA-256 Σ0. -/
def bigSigma0 (x : Nat) : Nat := rotr32 2 x ^^^ rotr32 13 x ^^^ rotr32 22 x

/-- SHA-256 Σ1. -/
def bigSigma1 (x : Nat) : Nat := rotr32 6 x ^^^ rotr32 11 x ^^^ rotr32 25 x

/-- SHA-256 σ0. -/
def smallSigma0 (x : Nat) : Nat := rotr32 7 x ^^^ rotr32 18 x ^^^ (x >>> 3)

/-- SHA-256 σ1. -/
def smallSigma1 (x : Nat) : Nat := rotr32 17 x ^^^ rotr32 19 x ^^^ (x >>> 10)

/-- SHA-256 Ch. -/
def chFn (x y z : Nat) : Nat := (x &&& y) ^^^ (not32 x &&& z)

/-- SHA-256 Maj. -/
def majFn (x y z : Nat) : Nat := (x &&& y) ^^^ (x &&& z) ^^^ (y &&& z)

/-- The 64 SHA-256 round constants. -/
def sha256K : List Nat :=
  [1116352408, 1899447441, 3049323471, 3921009573, 961987163,
   1508970993, 2453635748, 2870763221, 3624381080, 310598401,
   607225278, 1426881987, 1925078388, 2162078206, 2614888103,
   3248222580, 3835390401, 4022224774, 264347078, 604807628,
   770255983, 1249150122, 1555081692, 1996064986, 2554220882,
   2821834349, 2952996808, 3210313671, 3336571891, 3584528711,
   113926993, 338241895, 666307205, 773529912, 1294757372,
   1396182291, 1695183700, 1986661051, 2177026350, 2456956037,
   2730485921, 2820302411, 3259730800, 3345764771, 3516065817,
   3600352804, 4094571909, 275423344, 430227734, 506948616,
   659060556, 883997877, 958139571, 1322822218, 1537002063,
   1747873779, 1955562222, 2024104815, 2227730452, 2361852424,
   2428436474, 2756734187, 3204031479, 3329325298]

/-- The SHA-256 working state (eight 32-bit words). -/
structure Hash8 : Type where
  a : Nat
  b : Nat
  c : Nat
  d : Nat
  e : Nat
  f : Nat
  g : Nat
  h : Nat

/-- One SHA-256 compression round. -/
def shaRound (st : Hash8) (k w : Nat) : Hash8 :=
  let t1 := w32 (st.h + bigSigma1 st.e + chFn st.e st.f st.g + k + w)
  let t2 := w32 (bigSigma0 st.a + majFn st.a st.b st.c)
  ⟨w32 (t1 + t2), st.a, st.b, st.c, w32 (st.d + t1), st.e, st.f, st.g⟩

/-- Extend the 16-word message schedule by `k` further words. -/
def scheduleExtend : List Nat → Nat → List Nat
  | ws, 0 => ws
  | ws, k + 1 =>
    let n := ws.length
    scheduleExtend
      (ws ++ [w32 (smallSigma1 (ws.getD (n - 2) 0) + ws.getD (n - 7) 0
        + smallSigma0 (ws.getD (n - 15) 0) + ws.getD (n - 16) 0)]) k

/-- Process one 16-word block. -/
def sha256Compress (st : Hash8) (block : List Nat) : Hash8 :=
  let ws := scheduleExtend block 48
  let st2 := (ws.zip sha256K).foldl (fun s p => shaRound s p.2 p.1) st
  ⟨w32 (st.a + st2.a), w32 (st.b + st2.b), w32 (st.c + st2.c), w32 (st.d + st2.d),
   w32 (st.e + st2.e), w32 (st.f + st2.f), w32 (st.g + st2.g), w32 (st.h + st2.h)⟩

/-- UTF-8 encoding of one character. -/
def utf8Char (c : Char) : List Nat :=
  let n := c.toNat
  if n < 128 then [n]
  else if n < 2048 then [192 + n / 64, 128 + n % 64]
  else if n < 65536 then [224 + n / 4096, 128 + n / 64 % 64, 128 + n % 64]
  else [240 + n / 262144, 128 + n / 4096 % 64, 128 + n / 64 % 64, 128 + n % 64]

/-- UTF-8 bytes of a string (`update(relPath, 'utf-8')`). -/
def utf8Bytes (s : String) : List Nat := (s.data.map utf8Char).flatten

/-- Fixed-width big-endian byte decomposition of a number. -/
def beBytes : Nat → Nat → List Nat
  | 0, _ => []
  | k + 1, n => beBytes k (n / 256) ++ [n % 256]

/-- SHA-256 message padding: a `0x80` byte, zeros to 56 mod 64, then the
bit length as a 64-bit big-endian integer. -/
def padBytes (bs : List Nat) : List Nat :=
  let L := bs.length
  let k := (120 - (L + 1) % 64) % 64
  bs ++ [128] ++ List.replicate k 0 ++ beBytes 8 (8 * L)

/-- Group bytes into big-endian 32-bit words. -/
def toWords : List Nat → List Nat
  | b0 :: b1 :: b2 :: b3 :: rest =>
    (((b0 * 256 + b1) * 256 + b2) * 256 + b3) :: toWords rest
  | _ => []

/-- Group a word list into 16-word blocks (the input, being padded, is
always an exact multiple of 16 words; a shorter tail is kept as-is). -/
def toBlocks : List Nat → List (List Nat)
  | w0 :: w1 :: w2 :: w3 :: w4 :: w5 :: w6 :: w7 :: w8 :: w9 :: w10 :: w11 :: w12
      :: w13 :: w14 :: w15 :: rest =>
    [w0, w1, w2, w3, w4, w5, w6, w7, w8, w9, w10, w11, w12, w13, w14, w15]
      :: toBlocks rest
  | [] => []
  | ws => [ws]

/-- The SHA-256 initial state. -/
def sha256Init : Hash8 :=
  ⟨1779033703, 3144134277, 1013904242, 2773480762,
   1359893119, 2600822924, 528734635, 1541459225⟩

/-- SHA-256 of a string's UTF-8 bytes, as the final state. -/
def sha256Words (s : String) : Hash8 :=
  (toBlocks (toWords (padBytes (utf8Bytes s)))).foldl sha256Compress sha256Init

/-- SHA-256 digest of a string, as its 32 bytes. -/
def sha256Bytes (s : String) : List Nat :=
  let st := sha256Words s
  beBytes 4 st.a ++ beBytes 4 st.b ++ beBytes 4 st.c ++ beBytes 4 st.d
    ++ beBytes 4 st.e ++ beBytes 4 st.f ++ beBytes 4 st.g ++ beBytes 4 st.h

/-- The base64url alphabet. -/
def b64Chars : List Char :=
  "ABCDEFGHIJKLMNOPQRSTUVWXYZabcdefghijklmnopqrstuvwxyz0123456789-_".data

/-- The base64url character for a 6-bit value. -/
def b64Char (n : Nat) : Char := b64Chars.getD n 'A'

/-- Unpadded base64url encoding of a byte list (Node's `base64url`). -/
def b64urlEncode : List Nat → List Char
  | [] => []
  | [b0] => [b64Char (b0 / 4), b64Char (b0 % 4 * 16)]
  | [b0, b1] => [b64Char (b0 / 4), b64Char (b0 % 4 * 16 + b1 / 16), b64Char (b1 % 16 * 4)]
  | b0 :: b1 :: b2 :: rest =>
    b64Char (b0 / 4) :: b64Char (b0 % 4 * 16 + b1 / 16)
      :: b64Char (b1 % 16 * 4 + b2 / 64) :: b64Char (b2 % 64) :: b64urlEncode rest

/-- `createHash('sha256').update(relPath, 'utf-8').digest('base64url')`
from the signing loop. -/
def fileHash (relPath : String) : String := String.mk (b64urlEncode (sha256Bytes relPath))

/-- The digest read as one big-endian number (a convenient injective image
of the 32 digest bytes). -/
def digestNat (s : String) : Nat :=
  (sha256Bytes s).foldl (fun acc b => acc * 256 + b) 0

/-- The digest as an element of a finite type, for cardinality arguments. -/
def digestFin (s : String) : Fin (256 ^ 32) :=
  ⟨digestNat s % 256 ^ 32, Nat.mod_lt _ (pow_pos (by norm_num) 32)⟩

/-! ### Launch-constraint values and `evaluateConstraints` -/

mutual
/-- A constraint value as parsed from YAML: string, number, boolean,
sequence, or mapping (the spec's design notes give exactly this value
universe). -/
inductive PValue : Type where
  | str (s : String)
  | num (n : Int)
  | bool (b : Bool)
  | arr (vs : PList)
  | obj (kvs : PFields)

/-- A sequence of constraint values. -/
inductive PList : Type where
  | nil
  | cons (v : PValue) (vs : PList)

/-- An ordered mapping of keys to constraint values. -/
inductive PFields : Type where
  | nil
  | cons (k : String) (v : PValue) (kvs : PFields)
end

/-- The placeholder switch of `evaluateConstraints`'s callback:
`process.env.AC_TEAMID || value` — an unset or empty environment value
falls back to the literal text. -/
def teamIdSubst (env : Option String) (s : String) : PValue :=
  match env with
  | none => .str s
  | some t => if t = "" then .str s else .str t

mutual
/-- `evaluateConstraints` from the source, which is `_.mapValues(value, fn)`.
Beyond mappings (its typed use) the function is also reached with the
elements of sequences, because `fn` maps it over them; `_.mapValues` then
enumerates the argument's own enumerable keys, so a sequence argument
becomes a mapping keyed by decimal indices, a string argument becomes a
mapping of its characters keyed by decimal indices (each character going
through `fn` as a one-character string), and a number or boolean argument
yields the empty mapping. -/
def evaluateConstraints (env : Option String) : PValue → PValue
  | .obj kvs => .obj (evalFields env kvs)
  | .arr vs => .obj (indexFields env 0 vs)
  | .str s => .obj (charFields env 0 s.data)
  | .num _ => .obj .nil
  | .bool _ => .obj .nil

/-- The `_.mapValues` callback of `evaluateConstraints`: a string value
goes through the placeholder switch, an array value maps
`evaluateConstraints` over its elements, a mapping value recurses, and
any other value is returned unchanged. -/
def evalValue (env : Option String) : PValue → PValue
  | .str s => if s = "${AC_TEAMID}" then teamIdSubst env s else .str s
  | .arr vs => .arr (evalElems env vs)
  | .obj kvs => .obj (evalFields env kvs)
  | .num n => .num n
  | .bool b => .bool b

/-- `_.mapValues` over a mapping's fields. -/
def evalFields (env : Option String) : PFields → PFields
  | .nil => .nil
  | .cons k v kvs => .cons k (evalValue env v) (evalFields env kvs)

/-- `value.map(v => evaluateConstraints(v))` over a sequence. -/
def evalElems (env : Option String) : PList → PList
  | .nil => .nil
  | .cons v vs => .cons (evaluateConstraints env v) (evalElems env vs)

/-- `_.mapValues` applied to a sequence: decimal index keys, the callback
on each element. -/
def indexFields (env : Option String) (i : Nat) : PList → PFields
  | .nil => .nil
  | .cons v vs => .cons (toString i) (evalValue env v) (indexFields env (i + 1) vs)

/-- `_.mapValues` applied to a string: decimal index keys, the callback on
each one-character string (inlined here: a one-character string never
equals the placeholder, but the test is kept as the callback performs it). -/
def charFields (env : Option String) (i : Nat) : List Char → PFields
  | [] => .nil
  | c :: cs =>
    .cons (toString i)
      (if String.mk [c] = "${AC_TEAMID}" then teamIdSubst env (String.mk [c])
       else .str (String.mk [c]))
      (charFields env (i + 1) cs)
end

mutual
/-- The evaluator as the spec describes it: substitute the placeholder at
every string-valued leaf, recurse through nested mappings and sequences
with the same rule, and pass all other value types through unchanged. -/
def specEvalValue (env : Option String) : PValue → PValue
  | .str s => if s = "${AC_TEAMID}" then teamIdSubst env s else .str s
  | .arr vs => .arr (specEvalElems env vs)
  | .obj kvs => .obj (specEvalFields env kvs)
  | .num n => .num n
  | .bool b => .bool b

/-- Spec-described evaluation of a mapping's fields. -/
def specEvalFields (env : Option String) : PFields → PFields
  | .nil => .nil
  | .cons k v kvs => .cons k (specEvalValue env v) (specEvalFields env kvs)

/-- Spec-described evaluation of a sequence's elements. -/
def specEvalElems (env : Option String) : PList → PList
  | .nil => .nil
  | .cons v vs => .cons (specEvalValue env v) (specEvalElems env vs)
end

mutual
/-- Every sequence element occurring anywhere in the value is a mapping. -/
def seqElemsObj : PValue → Bool
  | .str _ => true
  | .num _ => true
  | .bool _ => true
  | .arr vs => seqElemsObjElems vs
  | .obj kvs => seqElemsObjFields kvs

/-- `seqElemsObj` for each element of a sequence, requiring mappings. -/
def seqElemsObjElems : PList → Bool
  | .nil => true
  | .cons v vs =>
    (match v with
     | .obj _ => true
     | _ => false) && seqElemsObj v && seqElemsObjElems vs

/-- `seqElemsObj` through a mapping's fields. -/
def seqElemsObjFields : PFields → Bool
  | .nil => true
  | .cons _ v kvs => seqElemsObj v && seqElemsObjFields kvs
end

/-! ### Entitlement resolution and the signing loop's write effects -/

/-- One record of `signingConfig.entitlements.overrides`. -/
structure Override : Type where
  paths : List String
  entitlements : List String
deriving DecidableEq

/-- The `entitlements` section of the signing configuration. -/
structure Entitlements : Type where
  default : List String
  overrides : List Override
deriving DecidableEq

/-- `signingConfig.entitlements.overrides.find(e => e.paths.includes(relPath))`. -/
def findOverride (cfg : Entitlements) (relPath : String) : Option Override :=
  cfg.overrides.find? (fun o => o.paths.contains relPath)

/-- The entitlement identity and entitlement set the signing loop picks for
one artifact: an override uses the path's hash as identity and the
override's set; otherwise identity `"default"` and the default set. -/
def resolveEntitlements (cfg : Entitlements) (relPath : String) : String × List String :=
  match findOverride cfg relPath with
  | some o => (fileHash relPath, o.entitlements)
  | none => ("default", cfg.default)

/-- Signing-loop state relevant to entitlement files: the
`wroteDefaultEntitlements` flag and the identities of the entitlement
files written so far (identity `x` names file `x-entitlement.plist`). -/
structure RunState : Type where
  wroteDefault : Bool
  writes : List String
deriving DecidableEq

/-- One iteration of the signing loop, restricted to its entitlement-file
effect: write the file for the resolved identity unless that identity is
`default` and the default file was already written, then update the flag. -/
def stepArtifact (cfg : Entitlements) (st : RunState) (relPath : String) : RunState :=
  let entitlementName := (resolveEntitlements cfg relPath).1
  if !st.wroteDefault || entitlementName != "default" then
    ⟨st.wroteDefault || entitlementName == "default", st.writes ++ [entitlementName]⟩
  else st

/-- The entitlement-file writes of a whole run over the sequence of yielded
relative paths. -/
def runWrites (cfg : Entitlements) (relPaths : List String) : RunState :=
  relPaths.foldl (stepArtifact cfg) ⟨false, []⟩

/-! ### Launch-constraint records -/

/-- One record of `signingConfig.constraints`. -/
structure ConstraintRecord : Type where
  paths : List String
  self : Option PValue
  parent : Option PValue
  responsible : Option PValue

/-- The three constraint categories, in the order the loop visits them. -/
inductive ConstraintType : Type where
  | self
  | parent
  | responsible
deriving DecidableEq

/-- The name a category contributes to flags and file names. -/
def ConstraintType.name : ConstraintType → String
  | .self => "self"
  | .parent => "parent"
  | .responsible => "responsible"

/-- The optional declaration a record holds for one category. -/
def ConstraintRecord.get : ConstraintRecord → ConstraintType → Option PValue
  | r, .self => r.self
  | r, .parent => r.parent
  | r, .responsible => r.responsible

/-- `signingConfig.constraints.find(c => c.paths.includes(relPath))`. -/
def findConstraints (constraints : List ConstraintRecord) (relPath : String) :
    Option ConstraintRecord :=
  constraints.find? (fun c => c.paths.contains relPath)

/-- The `--launch-constraint-<type>` flag/file pairs the loop produces for
one artifact; each pair also stands for the one constraint file written
for that category. -/
def constraintArgs (constraints : List ConstraintRecord) (relPath : String)
    (hash : String) : List (String × String) :=
  match findConstraints constraints relPath with
  | none => []
  | some c =>
    [ConstraintType.self, ConstraintType.parent, ConstraintType.responsible].filterMap
      (fun t => (c.get t).map (fun _ =>
        ("--launch-constraint-" ++ t.name, hash ++ "-constraint-" ++ t.name ++ ".plist")))

/-! ### Notarization decision -/

/-- Outcome of the notarization step of `sign`. -/
inductive NotarizeOutcome : Type where
  | notarized
  | skippedWithWarning
  | failed
deriving DecidableEq

/-- JavaScript truthiness of an optional environment string: unset and
empty are both falsy. -/
def truthy : Option String → Bool
  | none => false
  | some s => s != ""

/-- The notarization decision of `sign`: an explicit `--skip-notarize`
warns and continues; otherwise all three credentials must be truthy for
`notarize` to run; otherwise the run throws. -/
def notarizeDecision (skipFlag : Bool) (appleId appleIdPassword teamId : Option String) :
    NotarizeOutcome :=
  if skipFlag then .skippedWithWarning
  else if truthy appleId && truthy appleIdPassword && truthy teamId then .notarized
  else .failed

/-! ### The removal phase -/

/-- First entry with the given name, if any. -/
def childNamed (es : List Entry) (n : String) : Option Entry :=
  es.find? (fun e => e.name == n)

/-- Replace the first entry named `n` by `e'`. -/
def replaceFirst (es : List Entry) (n : String) (e' : Entry) : List Entry :=
  match es with
  | [] => []
  | e :: rest => if e.name == n then e' :: rest else e :: replaceFirst rest n e'

/-- `fs.rm(path.join(appDir, relpath), {recursive: true})` on the tree of
`appDir`'s entries, the relative path given as components: remove the
named entry, recursing through named subdirectories; `none` models the
rejected promise (ENOENT for a missing path — there is no `force` option —
or ENOTDIR when a non-final component is not a directory).  The empty
relative path (removing the bundle root itself) is outside the model. -/
def removeOne (es : List Entry) : List String → Option (List Entry)
  | [] => none
  | [n] =>
    if (es.map Entry.name).contains n then some (es.filter (fun e => e.name != n))
    else none
  | n :: rest =>
    match childNamed es n with
    | some (.dir _ cs) =>
      (removeOne cs rest).map (fun cs' => replaceFirst es n (Entry.dir n cs'))
    | _ => none

/-- Whether the relative path `p` exists in the tree (without following
symbolic links). -/
def existsRel (es : List Entry) : List String → Bool
  | [] => true
  | [n] => (es.map Entry.name).contains n
  | n :: rest =>
    match childNamed es n with
    | some (.dir _ cs) => existsRel cs rest
    | _ => false

/-- The removal phase over all of `signingConfig.remove` (modeled
sequentially; `Promise.all` rejects as soon as any single `rm` rejects,
and `sign` awaits the phase before the signing walk starts). -/
def removeAll (es : List Entry) : List (List String) → Option (List Entry)
  | [] => some es
  | p :: ps =>
    match removeOne es p with
    | none => none
    | some es' => removeAll es' ps

/-- The run prefix relevant to the removal claim: the removal phase, then
the walk feeding the signing loop.  `none` means the run aborted during
removal, before any artifact was signed. -/
def runRemovalThenWalk (signed : List String → Bool) (root : List String)
    (es : List Entry) (remove : List (List String)) : Option (List (List String)) :=
  (removeAll es remove).map (fun es' => findFilesToSign signed root es')

theorem splitCharsAux_ne_nil (cs acc : List Char) : splitCharsAux cs acc ≠ [] := by
  induction cs generalizing acc with
  | nil => simp [splitCharsAux]
  | cons c cs ih =>
    simp only [splitCharsAux]
    split
    · simp
    · exact ih (c :: acc)

theorem splitCharsAux_sep_cons (cs acc : List Char) :
    splitCharsAux (sep :: cs) acc = acc.reverse :: splitCharsAux cs [] := by
  simp [splitCharsAux]

theorem splitCharsAux_cons_ne (c : Char) (cs acc : List Char) (h : c ≠ sep) :
    splitCharsAux (c :: cs) acc = splitCharsAux cs (c :: acc) := by
  simp [splitCharsAux, h]

theorem joinSep_cons (p : List Char) (ps : List (List Char)) (h : ps ≠ []) :
    joinSep (p :: ps) = p ++ sep :: joinSep ps := by
  cases ps with
  | nil => exact absurd rfl h
  | cons q qs => rfl

theorem joinSep_splitCharsAux (cs acc : List Char) :
    joinSep (splitCharsAux cs acc) = acc.reverse ++ cs := by
  induction cs generalizing acc with
  | nil => simp [splitCharsAux, joinSep]
  | cons c cs ih =>
    by_cases h : c = sep
    · subst h
      rw [splitCharsAux_sep_cons, joinSep_cons _ _ (splitCharsAux_ne_nil cs []), ih]
      simp
    · rw [splitCharsAux_cons_ne c cs acc h, ih (c :: acc)]
      simp

theorem joinSep_splitChars (cs : List Char) : joinSep (splitChars cs) = cs := by
  simpa using joinSep_splitCharsAux cs []

theorem splitCharsAux_sep_free (cs acc : List Char) (hacc : ∀ c ∈ acc, c ≠ sep) :
    ∀ l ∈ splitCharsAux cs acc, ∀ c ∈ l, c ≠ sep := by
  induction cs generalizing acc with
  | nil =>
    intro l hl c hc
    simp [splitCharsAux] at hl
    subst hl
    exact hacc c (by simpa using hc)
  | cons d cs ih =>
    intro l hl c hc
    by_cases h : d = sep
    · subst h
      rw [splitCharsAux_sep_cons] at hl
      rcases List.mem_cons.mp hl with rfl | hl
      · exact hacc c (by simpa using hc)
      · exact ih [] (by simp) l hl c hc
    · rw [splitCharsAux_cons_ne d cs acc h] at hl
      refine ih (d :: acc) ?_ l hl c hc
      intro e he
      rcases List.mem_cons.mp he with rfl | he
      · exact h
      · exact hacc e he

theorem splitChars_sep_free (cs : List Char) :
    ∀ l ∈ splitChars cs, ∀ c ∈ l, c ≠ sep :=
  splitCharsAux_sep_free cs [] (by simp)

theorem joinRev_append_singleton (xs : List (List Char)) (x : List Char) :
    joinRev (xs ++ [x]) = x ++ (if xs = [] then [] else sep :: joinRev xs) := by
  induction xs with
  | nil => simp [joinRev]
  | cons a xs ih =>
    have hne : xs ++ [x] ≠ [] := by simp
    cases hxs : xs ++ [x] with
    | nil => exact absurd hxs hne
    | cons y ys =>
      simp only [List.cons_append, joinRev, hxs]
      rw [← hxs, ih]
      cases xs with
      | nil => simp [joinRev]
      | cons b xs' => simp [joinRev, List.append_assoc]

theorem joinRev_reverse (l : List (List Char)) : joinRev l.reverse = joinSep l := by
  induction l with
  | nil => rfl
  | cons p ps ih =>
    simp only [List.reverse_cons]
    rw [joinRev_append_singleton]
    cases ps with
    | nil => simp [joinSep]
    | cons q qs =>
      simp only [joinSep]
      rw [← ih]
      simp

/-- The characters of a path equal the reversed-component join of its split;
together with `splitChars_sep_free` this is the interface the bundle
classifier's proofs use. -/
theorem joinRev_reverse_splitChars (cs : List Char) :
    joinRev (splitChars cs).reverse = cs := by
  rw [joinRev_reverse, joinSep_splitChars]

theorem joinRev_cons (p : List Char) (ps : List (List Char)) (h : ps ≠ []) :
    joinRev (p :: ps) = joinRev ps ++ sep :: p := by
  cases ps with
  | nil => exact absurd rfl h
  | cons q qs => rfl

/-- Prefix matching through a separator: when `u` and `v` are free of the
separator, `u ++ sep :: a` can begin `v ++ sep :: b` only componentwise. -/
theorem seg_prefix_iff (u : List Char) :
    ∀ (v a b : List Char), (∀ c ∈ u, c ≠ sep) → (∀ c ∈ v, c ≠ sep) →
      ((u ++ sep :: a <+: v ++ sep :: b) ↔ u = v ∧ a <+: b) := by
  induction u with
  | nil =>
    intro v a b _ hv
    cases v with
    | nil => simp
    | cons d v' =>
      simp only [List.nil_append, List.cons_append, List.cons_prefix_cons]
      have hd : d ≠ sep := hv d (by simp)
      simp [hd.symm]
  | cons c u' ih =>
    intro v a b hu hv
    have hc : c ≠ sep := hu c (by simp)
    cases v with
    | nil =>
      simp only [List.cons_append, List.nil_append, List.cons_prefix_cons]
      simp [hc]
    | cons d v' =>
      simp only [List.cons_append, List.cons_prefix_cons]
      rw [ih v' a b (fun e he => hu e (by simp [he])) (fun e he => hv e (by simp [he]))]
      constructor
      · rintro ⟨rfl, rfl, hab⟩
        exact ⟨rfl, hab⟩
      · rintro ⟨h, hab⟩
        injection h with h1 h2
        exact ⟨h1, h2, hab⟩

/-- Suffix version of `seg_prefix_iff`. -/
theorem seg_suffix_iff (a u b v : List Char) (hu : ∀ c ∈ u, c ≠ sep)
    (hv : ∀ c ∈ v, c ≠ sep) :
    ((a ++ sep :: u <:+ b ++ sep :: v) ↔ u = v ∧ a <:+ b) := by
  have h1 : (a ++ sep :: u <:+ b ++ sep :: v) ↔
      (u.reverse ++ sep :: a.reverse <+: v.reverse ++ sep :: b.reverse) := by
    rw [← List.reverse_suffix]
    constructor <;> intro h <;> simpa [List.reverse_append] using h
  rw [h1, seg_prefix_iff u.reverse v.reverse a.reverse b.reverse
    (fun c hc => hu c (List.mem_reverse.mp hc)) (fun c hc => hv c (List.mem_reverse.mp hc))]
  constructor
  · rintro ⟨h2, h3⟩
    exact ⟨List.reverse_injective h2, List.reverse_prefix.mp h3⟩
  · rintro ⟨rfl, h3⟩
    exact ⟨rfl, List.reverse_prefix.mpr h3⟩

/-- A separator-free prefix of `w ++ sep :: z` with `w` separator-free never
reaches past `w`. -/
theorem sepfree_prefix_append_iff (u : List Char) :
    ∀ (w z : List Char), (∀ c ∈ u, c ≠ sep) → (∀ c ∈ w, c ≠ sep) →
      ((u <+: w ++ sep :: z) ↔ u <+: w) := by
  induction u with
  | nil => intro w z _ _; simp
  | cons c u' ih =>
    intro w z hu hw
    have hc : c ≠ sep := hu c (by simp)
    cases w with
    | nil =>
      simp only [List.nil_append, List.cons_prefix_cons]
      simp [hc, List.IsPrefix]
    | cons d w' =>
      simp only [List.cons_append, List.cons_prefix_cons]
      rw [ih w' z (fun e he => hu e (by simp [he])) (fun e he => hw e (by simp [he]))]

/-- Suffix version of `sepfree_prefix_append_iff`. -/
theorem sepfree_suffix_append_iff (u w z : List Char) (hu : ∀ c ∈ u, c ≠ sep)
    (hw : ∀ c ∈ w, c ≠ sep) :
    ((u <:+ z ++ sep :: w) ↔ u <:+ w) := by
  have h1 : (u <:+ z ++ sep :: w) ↔ (u.reverse <+: w.reverse ++ sep :: z.reverse) := by
    rw [← List.reverse_suffix]
    constructor <;> intro h <;> simpa [List.reverse_append] using h
  rw [h1, sepfree_prefix_append_iff u.reverse w.reverse z.reverse
    (fun c hc => hu c (List.mem_reverse.mp hc)) (fun c hc => hw c (List.mem_reverse.mp hc))]
  exact ⟨fun h => List.reverse_prefix.mp h, fun h => List.reverse_prefix.mpr h⟩

theorem appPattern_decomp :
    (".app/Contents/MacOS/").data =
      ".app".data ++ sep :: ("Contents".data ++ sep :: ("MacOS".data ++ [sep])) := by
  rfl

/-- The app-branch of the source classifier, reduced to component form. -/
theorem app_suffix_iff (p0 p1 p2 p3 : List Char) (rest : List (List Char))
    (h0 : ∀ c ∈ p0, c ≠ sep) (h1 : ∀ c ∈ p1, c ≠ sep)
    (h2 : ∀ c ∈ p2, c ≠ sep) (h3 : ∀ c ∈ p3, c ≠ sep) :
    ((p0 ++ ".app/Contents/MacOS/".data ++ p0 <:+ joinRev (p0 :: p1 :: p2 :: p3 :: rest)) ↔
      ((p0 ++ ".app".data) <:+ p3 ∧ p2 = "Contents".data ∧ p1 = "MacOS".data)) := by
  have e1 : joinRev (p0 :: p1 :: p2 :: p3 :: rest) =
      ((joinRev (p3 :: rest) ++ sep :: p2) ++ sep :: p1) ++ sep :: p0 := by
    rw [joinRev_cons p0 _ (by simp), joinRev_cons p1 _ (by simp), joinRev_cons p2 _ (by simp)]
  have e2 : p0 ++ ".app/Contents/MacOS/".data ++ p0 =
      ((p0 ++ ".app".data ++ sep :: "Contents".data) ++ sep :: "MacOS".data) ++ sep :: p0 := by
    rw [appPattern_decomp]
    simp
  rw [e1, e2]
  rw [seg_suffix_iff _ _ _ _ h0 h0]
  rw [seg_suffix_iff _ _ _ _ (by decide) h1]
  rw [seg_suffix_iff _ _ _ _ (by decide) h2]
  have e3 : ((p0 ++ ".app".data) <:+ joinRev (p3 :: rest)) ↔ ((p0 ++ ".app".data) <:+ p3) := by
    cases rest with
    | nil => rfl
    | cons r rs =>
      rw [joinRev_cons p3 _ (by simp)]
      exact sepfree_suffix_append_iff _ _ _
        (by
          intro c hc
          rcases List.mem_append.mp hc with hc | hc
          · exact h0 c hc
          · have hdot : ∀ x ∈ ".app".data, x ≠ sep := by decide
            exact hdot c hc) h3
  rw [e3]
  constructor
  · rintro ⟨-, hm, hc, hsuf⟩
    exact ⟨hsuf, hc.symm, hm.symm⟩
  · rintro ⟨hsuf, hc, hm⟩
    exact ⟨rfl, hm.symm, hc.symm, hsuf⟩

/-- Components of the reversed split are separator-free. -/
theorem split_reverse_sep_free (cs : List Char) (l : List Char)
    (hl : l ∈ (splitChars cs).reverse) : ∀ c ∈ l, c ≠ sep :=
  splitChars_sep_free cs l (List.mem_reverse.mp hl)

/-- The source classifier coincides with the amended component-level
description on every path string. -/
theorem isBundleExecutable_eq_amended (s : String) :
    isBundleExecutable s = amendedIsBundleExecutable s := by
  rw [isBundleExecutable, amendedIsBundleExecutable]
  have hjoin := joinRev_reverse_splitChars s.data
  rcases hsp : (splitChars s.data).reverse with _ | ⟨p0, _ | ⟨p1, _ | ⟨p2, _ | ⟨p3, rest⟩⟩⟩⟩ <;>
    try rfl
  rw [hsp] at hjoin
  have h0 := split_reverse_sep_free s.data p0 (by rw [hsp]; simp)
  have h1 := split_reverse_sep_free s.data p1 (by rw [hsp]; simp)
  have h2 := split_reverse_sep_free s.data p2 (by rw [hsp]; simp)
  have h3 := split_reverse_sep_free s.data p3 (by rw [hsp]; simp)
  simp only [bundleExecAux, amendedBundleExecAux]
  have happ : ((p0 ++ ".app/Contents/MacOS/".data ++ p0).isSuffixOf s.data) =
      ((p0 ++ ".app".data).isSuffixOf p3 && p2 == "Contents".data && p1 == "MacOS".data) := by
    rw [Bool.eq_iff_iff]
    rw [List.isSuffixOf_iff_suffix]
    rw [← hjoin, app_suffix_iff p0 p1 p2 p3 rest h0 h1 h2 h3]
    simp only [Bool.and_eq_true, List.isSuffixOf_iff_suffix, beq_iff_eq]
    tauto
  rw [happ]

theorem bundleYield_mem (signed : List String → Bool) (dir : List String)
    (x : List String) (hx : x ∈ bundleYield signed dir) : x = dir := by
  unfold bundleYield at hx
  split at hx
  · split at hx <;> simp_all
  · simp at hx

mutual
theorem walkEntry_mem (signed : List String → Bool) (dir : List String) (e : Entry) :
    ∀ x ∈ walkEntry signed dir e, dir ++ [e.name] <+: x := by
  cases e with
  | symlink n => intro x hx; simp [walkEntry] at hx
  | file n content =>
    intro x hx
    simp only [walkEntry] at hx
    split at hx
    · simp at hx
    · split at hx
      · split at hx
        · simp at hx
        · simp only [List.mem_singleton] at hx
          subst hx
          exact List.prefix_rfl
      · simp at hx
  | dir n children =>
    intro x hx
    rcases List.mem_append.mp hx with hx | hx
    · obtain ⟨e', -, he'⟩ := walkList_mem signed (dir ++ [n]) children x hx
      exact List.IsPrefix.trans (List.prefix_append _ _) he'
    · rw [bundleYield_mem signed (dir ++ [n]) x hx]
      exact List.prefix_rfl

theorem walkList_mem (signed : List String → Bool) (dir : List String) (es : List Entry) :
    ∀ x ∈ walkList signed dir es, ∃ e ∈ es, dir ++ [e.name] <+: x := by
  cases es with
  | nil => intro x hx; simp [walkList] at hx
  | cons e es =>
    intro x hx
    rcases List.mem_append.mp hx with hx | hx
    · exact ⟨e, List.mem_cons_self e es, walkEntry_mem signed dir e x hx⟩
    · obtain ⟨e', he', hpre⟩ := walkList_mem signed dir es x hx
      exact ⟨e', List.mem_cons_of_mem e he', hpre⟩
end

theorem bottomUpOrder_append (A B : List (List String)) (hA : bottomUpOrder A)
    (hB : bottomUpOrder B) (h : ∀ a ∈ A, ∀ b ∈ B, ¬ strictlyUnder b a) :
    bottomUpOrder (A ++ B) :=
  List.pairwise_append.mpr ⟨hA, hB, h⟩

theorem bottomUpOrder_le_one (L : List (List String)) (h : L.length ≤ 1) :
    bottomUpOrder L := by
  match L, h with
  | [], _ => exact List.Pairwise.nil
  | [x], _ => simp [bottomUpOrder]

/-- Paths coming out of the walk of a directory's children are strictly
longer than the directory's own path, hence never have it as an ancestor. -/
theorem walkList_not_under (signed : List String → Bool) (dir : List String)
    (es : List Entry) (a : List String) (ha : a ∈ walkList signed dir es)
    (b : List String) (hlen : b.length ≤ dir.length) : ¬ strictlyUnder b a := by
  rintro ⟨hpre, -⟩
  obtain ⟨e, -, he⟩ := walkList_mem signed dir es a ha
  have h1 : dir.length + 1 ≤ a.length := by
    have := he.length_le
    simpa using this
  have h2 : a.length ≤ b.length := hpre.length_le
  omega

mutual
theorem walkEntry_bottomUp (signed : List String → Bool) (dir : List String)
    (e : Entry) (h : wfEntry e = true) : bottomUpOrder (walkEntry signed dir e) := by
  cases e with
  | symlink n => exact List.Pairwise.nil
  | file n content =>
    apply bottomUpOrder_le_one
    simp only [walkEntry]
    split
    · simp
    · split
      · split <;> simp
      · simp
  | dir n children =>
    have hwf : wfList children = true := by simpa [wfEntry] using h
    refine bottomUpOrder_append _ _ (walkList_bottomUp signed (dir ++ [n]) children hwf) ?_ ?_
    · apply bottomUpOrder_le_one
      unfold bundleYield
      split
      · split <;> simp
      · simp
    · intro a ha b hb
      rw [bundleYield_mem signed (dir ++ [n]) b hb]
      exact walkList_not_under signed (dir ++ [n]) children a ha _ le_rfl

theorem walkList_bottomUp (signed : List String → Bool) (dir : List String)
    (es : List Entry) (h : wfList es = true) : bottomUpOrder (walkList signed dir es) := by
  cases es with
  | nil => exact List.Pairwise.nil
  | cons e es =>
    simp only [wfList, Bool.and_eq_true, Bool.not_eq_true'] at h
    obtain ⟨⟨he, hname⟩, hes⟩ := h
    have hnotmem : e.name ∉ es.map Entry.name := by simpa using hname
    refine bottomUpOrder_append _ _ (walkEntry_bottomUp signed dir e he)
      (walkList_bottomUp signed dir es hes) ?_
    intro a ha b hb
    rintro ⟨hpre, -⟩
    have hae : dir ++ [e.name] <+: a := walkEntry_mem signed dir e a ha
    obtain ⟨e', he', hbe⟩ := walkList_mem signed dir es b hb
    have h1 : dir ++ [e.name] <+: b := hae.trans hpre
    have h2 : dir ++ [e.name] = dir ++ [e'.name] := by
      apply List.IsPrefix.eq_of_length
      · exact List.prefix_of_prefix_length_le h1 hbe (by simp)
      · simp
    have : e.name = e'.name := by
      have := List.append_cancel_left h2
      simpa using this
    exact hnotmem (this ▸ List.mem_map_of_mem Entry.name he')
end

/-- C1: for every bundle tree (well-formed: sibling names are distinct, as
on a real filesystem), the sequence of paths produced by `findFilesToSign`
never yields a path before every yielded path strictly underneath it (by
directory containment) has already been yielded; in particular every nested
bundle or binary is yielded before any ancestor `.app` or `.framework`
directory containing it. -/
theorem findFilesToSign_bottom_up (signed : List String → Bool) (dir : List String)
    (children : List Entry) (h : wfList children = true) :
    bottomUpOrder (findFilesToSign signed dir children) := by
  refine bottomUpOrder_append _ _ (walkList_bottomUp signed dir children h) ?_ ?_
  · apply bottomUpOrder_le_one
    unfold bundleYield
    split
    · split <;> simp
    · simp
  · intro a ha b hb
    rw [bundleYield_mem signed dir b hb]
    exact walkList_not_under signed dir children a ha _ le_rfl

/-- Witness for C1: a concrete nested bundle tree satisfies the hypothesis
and hence the bottom-up ordering. -/
theorem findFilesToSign_bottom_up_witness :
    wfList [Entry.dir "Contents" [Entry.dir "MacOS"
        [Entry.file "Foo" (some [0xFE, 0xED, 0xFA, 0xCF])],
      Entry.dir "Frameworks" [Entry.dir "Bar.framework" [Entry.dir "Versions"
        [Entry.dir "A" [Entry.file "Bar" (some [0xCF, 0xFA, 0xED, 0xFE])]]]]]] = true
    ∧ bottomUpOrder (findFilesToSign (fun _ => false) ["Foo.app"]
        [Entry.dir "Contents" [Entry.dir "MacOS"
          [Entry.file "Foo" (some [0xFE, 0xED, 0xFA, 0xCF])],
        Entry.dir "Frameworks" [Entry.dir "Bar.framework" [Entry.dir "Versions"
          [Entry.dir "A" [Entry.file "Bar" (some [0xCF, 0xFA, 0xED, 0xFE])]]]]]]) :=
  ⟨by decide, findFilesToSign_bottom_up (fun _ => false) ["Foo.app"] _ (by decide)⟩

mutual
theorem walkEntry_signed_false (signed : List String → Bool) (dir : List String)
    (e : Entry) : ∀ x ∈ walkEntry signed dir e, signed x = false := by
  cases e with
  | symlink n => intro x hx; simp [walkEntry] at hx
  | file n content =>
    intro x hx
    simp only [walkEntry] at hx
    split at hx
    · simp at hx
    · split at hx
      · split at hx
        · simp at hx
        · simp only [List.mem_singleton] at hx
          subst hx
          simp_all
      · simp at hx
  | dir n children =>
    intro x hx
    rcases List.mem_append.mp hx with hx | hx
    · exact walkList_signed_false signed (dir ++ [n]) children x hx
    · unfold bundleYield at hx
      split at hx
      · split at hx
        · simp at hx
        · simp only [List.mem_singleton] at hx
          subst hx
          simp_all
      · simp at hx

theorem walkList_signed_false (signed : List String → Bool) (dir : List String)
    (es : List Entry) : ∀ x ∈ walkList signed dir es, signed x = false := by
  cases es with
  | nil => intro x hx; simp [walkList] at hx
  | cons e es =>
    intro x hx
    rcases List.mem_append.mp hx with hx | hx
    · exact walkEntry_signed_false signed dir e x hx
    · exact walkList_signed_false signed dir es x hx
end

/-- C7: for every artifact, if the presence check (`codesign --verify` in
strict platform-anchor mode, `signed p = true`) succeeds, the artifact is
never yielded by the walker (hence never signed); a failing check is the
expected "needs signing" signal and makes the walker yield the candidate
(both for Mach-O files and for `.app`/`.framework` directories), never an
error. -/
theorem presence_check_gates_walker (signed : List String → Bool) (dir : List String)
    (children : List Entry) :
    (∀ x ∈ findFilesToSign signed dir children, signed x = false)
    ∧ (∀ name content, isBundleExecutable (joinPath (dir ++ [name])) = false →
        machOMagic content = true → signed (dir ++ [name]) = false →
        walkEntry signed dir (Entry.file name content) = [dir ++ [name]])
    ∧ ((endsWithStr (joinPath dir) ".app" || endsWithStr (joinPath dir) ".framework") = true →
        signed dir = false → bundleYield signed dir = [dir]) := by
  refine ⟨?_, ?_, ?_⟩
  · intro x hx
    rcases List.mem_append.mp hx with hx | hx
    · exact walkList_signed_false signed dir children x hx
    · unfold bundleYield at hx
      split at hx
      · split at hx
        · simp at hx
        · simp only [List.mem_singleton] at hx
          subst hx
          simp_all
      · simp at hx
  · intro name content hbe hmo hsig
    simp [walkEntry, hbe, hmo, hsig]
  · intro hend hsig
    simp [bundleYield, hend, hsig]

/-- Witness for C7: a concrete unsigned Mach-O candidate is yielded, and a
concrete signed tree yields nothing. -/
theorem presence_check_gates_walker_witness :
    walkEntry (fun _ => false) ["R.app"] (Entry.file "x" (some [0xFE, 0xED, 0xFA, 0xCF]))
      = [["R.app", "x"]] :=
  (presence_check_gates_walker (fun _ => false) ["R.app"] []).2.1 "x"
    (some [0xFE, 0xED, 0xFA, 0xCF]) (by decide) (by decide) rfl

/-- C6: the binary detector interprets the first four bytes of a readable
file as a big-endian 32-bit integer and accepts exactly the two 64-bit
Mach-O magic values; `FE ED FA CF` is signable, four zero bytes are not, a
failed read is "not signable" rather than an error, and the walk continues
past unreadable files. -/
theorem machO_detector_spec :
    (∀ b0 b1 b2 b3 : Nat, ∀ more : List Nat,
        readUInt32BE (b0 :: b1 :: b2 :: b3 :: more) = ((b0 * 256 + b1) * 256 + b2) * 256 + b3)
    ∧ (∀ bs : List Nat, machOMagic (some bs)
        = (readUInt32BE bs == 0xFEEDFACF || readUInt32BE bs == 0xCFFAEDFE))
    ∧ machOMagic (some [0xFE, 0xED, 0xFA, 0xCF]) = true
    ∧ machOMagic (some [0x00, 0x00, 0x00, 0x00]) = false
    ∧ machOMagic none = false
    ∧ walkList (fun _ => false) ["T.app"]
        [Entry.file "bad" none, Entry.file "good" (some [0xFE, 0xED, 0xFA, 0xCF])]
      = [["T.app", "good"]] := by
  refine ⟨?_, fun bs => rfl, by decide, by decide, rfl, by decide⟩
  intro b0 b1 b2 b3 more
  simp [readUInt32BE]

/-- C2 counterexample: the source classifier skips
`FooBar.app/Contents/MacOS/Bar` although the `<Name>` at the two ends
differs (`FooBar` vs `Bar`), because the source tests the pattern with a
string-level `endsWith` and `FooBar.app` ends with `Bar.app`; the claim's
"if and only if" therefore fails at this path. -/
theorem bundle_executable_claim_counterexample :
    isBundleExecutable "FooBar.app/Contents/MacOS/Bar" = true
    ∧ specIsBundleExecutable "FooBar.app/Contents/MacOS/Bar" = false := by
  constructor <;> decide

/-- C2 (amended): the classifier marks a file path as a skipped bundle
executable iff its last four components are `X / Contents / MacOS / Name`
with `X` merely ENDING in `Name.app` (instead of being equal to it), or
its grandparent is `Versions` and its great-grandparent is exactly
`Name.framework` for the file's own name `Name`; in particular
`MyApp.app/Contents/MacOS/MyApp` is skipped and
`MyApp.app/Contents/MacOS/Helper` is a candidate. -/
theorem bundle_executable_amended :
    (∀ s : String, isBundleExecutable s = amendedIsBundleExecutable s)
    ∧ isBundleExecutable "MyApp.app/Contents/MacOS/MyApp" = true
    ∧ isBundleExecutable "MyApp.app/Contents/MacOS/Helper" = false := by
  exact ⟨isBundleExecutable_eq_amended, by decide, by decide⟩

/-- C5: whenever some notarization credential (Apple ID, app-specific
password, or team identifier) is absent — unset or empty, i.e. falsy —
notarization is never performed; and with the explicit `--skip-notarize`
flag the run warns and continues instead of failing. -/
theorem notarize_skipped_without_credentials (skipFlag : Bool)
    (appleId appleIdPassword teamId : Option String)
    (h : truthy appleId = false ∨ truthy appleIdPassword = false ∨ truthy teamId = false) :
    notarizeDecision skipFlag appleId appleIdPassword teamId ≠ NotarizeOutcome.notarized
    ∧ (skipFlag = true →
        notarizeDecision skipFlag appleId appleIdPassword teamId
          = NotarizeOutcome.skippedWithWarning) := by
  constructor
  · unfold notarizeDecision
    split
    · simp
    · split
      · rename_i hall
        rw [Bool.and_eq_true, Bool.and_eq_true] at hall
        rcases h with h | h | h <;> rw [h] at hall <;> simp at hall
      · simp
  · intro hs
    subst hs
    simp [notarizeDecision]

/-- Witness for C5: missing password, flag given. -/
theorem notarize_skipped_without_credentials_witness :
    notarizeDecision true (some "user") none (some "TEAMID") ≠ NotarizeOutcome.notarized
    ∧ (true = true → notarizeDecision true (some "user") none (some "TEAMID")
        = NotarizeOutcome.skippedWithWarning) :=
  notarize_skipped_without_credentials true (some "user") none (some "TEAMID")
    (Or.inr (Or.inl (by decide)))

theorem flag_self : "--launch-constraint-" ++ ConstraintType.name ConstraintType.self
    = "--launch-constraint-self" := rfl

theorem flag_parent : "--launch-constraint-" ++ ConstraintType.name ConstraintType.parent
    = "--launch-constraint-parent" := rfl

theorem flag_responsible :
    "--launch-constraint-" ++ ConstraintType.name ConstraintType.responsible
    = "--launch-constraint-responsible" := rfl

/-- C9: per artifact and per category (self/parent/responsible): no
matching constraint record means no flags and no constraint files at all;
with a matching record, an absent category contributes zero
flag/file pairs and a present category contributes exactly one. -/
theorem constraint_category_counts (constraints : List ConstraintRecord)
    (relPath hash : String) (t : ConstraintType) :
    (findConstraints constraints relPath = none →
      constraintArgs constraints relPath hash = [])
    ∧ (∀ c, findConstraints constraints relPath = some c →
        ((constraintArgs constraints relPath hash).filter
            (fun pr => pr.1 == "--launch-constraint-" ++ t.name)).length
          = if (c.get t).isSome then 1 else 0) := by
  constructor
  · intro h
    simp [constraintArgs, h]
  · intro c h
    unfold constraintArgs
    rw [h]
    rcases c with ⟨paths, oself, oparent, oresp⟩
    cases t <;> cases oself <;> cases oparent <;> cases oresp <;>
      simp [ConstraintRecord.get, ConstraintType.name, flag_self, flag_parent, flag_responsible]

/-- Witness for C9: a concrete configuration with only a `self` constraint
produces exactly one self pair and zero parent pairs. -/
theorem constraint_category_counts_witness :
    ((constraintArgs
        [⟨["Contents/A"], some (PValue.bool true), none, none⟩] "Contents/A" "H").filter
      (fun pr => pr.1 == "--launch-constraint-"
        ++ ConstraintType.name ConstraintType.self)).length = 1 :=
  (constraint_category_counts
      [⟨["Contents/A"], some (PValue.bool true), none, none⟩] "Contents/A" "H"
      ConstraintType.self).2
    ⟨["Contents/A"], some (PValue.bool true), none, none⟩ (by rfl)

theorem childNamed_filter_self (es : List Entry) (n : String) :
    childNamed (es.filter (fun e => e.name != n)) n = none := by
  induction es with
  | nil => rfl
  | cons e tail ih =>
    by_cases h : e.name = n
    · have hb : (e.name != n) = false := by simp [h]
      simp only [List.filter, hb]
      exact ih
    · have hb : (e.name == n) = false := by simpa using h
      simp only [List.filter, bne, hb, Bool.not_false]
      simp only [childNamed, List.find?, hb] at ih ⊢
      exact ih

theorem childNamed_filter_ne (es : List Entry) (n m : String) (hnm : m ≠ n) :
    childNamed (es.filter (fun e => e.name != n)) m = childNamed es m := by
  induction es with
  | nil => rfl
  | cons e tail ih =>
    by_cases h : e.name = n
    · have hm : (e.name == m) = false := by simp [h]; exact fun hc => hnm hc.symm
      have hb : (e.name == n) = true := by simpa using h
      simp only [List.filter, bne, hb, Bool.not_true]
      simp only [childNamed, List.find?, hm] at ih ⊢
      exact ih
    · have hb : (e.name == n) = false := by simpa using h
      simp only [List.filter, bne, hb, Bool.not_false]
      by_cases hm : e.name = m
      · have hmb : (e.name == m) = true := by simpa using hm
        simp [childNamed, List.find?, hmb]
      · have hmb : (e.name == m) = false := by simpa using hm
        simp only [childNamed, List.find?, hmb] at ih ⊢
        exact ih

theorem filter_names_sub (es : List Entry) (n m : String)
    (h : ((es.filter (fun e => e.name != n)).map Entry.name).contains m = true) :
    (es.map Entry.name).contains m = true := by
  simp only [List.contains_eq_any_beq, List.any_eq_true] at h ⊢
  obtain ⟨x, hx, hbeq⟩ := h
  obtain ⟨e, he, rfl⟩ := List.mem_map.mp hx
  exact ⟨e.name, List.mem_map_of_mem Entry.name (List.mem_of_mem_filter he), hbeq⟩

theorem replaceFirst_names (es : List Entry) (n : String) (e' : Entry)
    (h : e'.name = n) : (replaceFirst es n e').map Entry.name = es.map Entry.name := by
  induction es with
  | nil => rfl
  | cons e tail ih =>
    by_cases hb : (e.name == n) = true
    · simp only [replaceFirst, hb, if_true, List.map_cons]
      rw [h, eq_of_beq hb]
    · simp only [replaceFirst, hb, if_false, Bool.false_eq_true, List.map_cons, ih]

theorem childNamed_replaceFirst_self (es : List Entry) (n : String) (e' : Entry)
    (hname : e'.name = n) (e : Entry) (h : childNamed es n = some e) :
    childNamed (replaceFirst es n e') n = some e' := by
  induction es with
  | nil => simp [childNamed] at h
  | cons a tail ih =>
    by_cases hb : (a.name == n) = true
    · simp only [replaceFirst, hb, if_true]
      simp [childNamed, List.find?, hname]
    · simp only [replaceFirst, hb, if_false, Bool.false_eq_true]
      simp only [childNamed, List.find?, hb] at h ⊢
      exact ih h

theorem childNamed_replaceFirst_ne (es : List Entry) (n m : String) (e' : Entry)
    (hname : e'.name = n) (hnm : m ≠ n) :
    childNamed (replaceFirst es n e') m = childNamed es m := by
  induction es with
  | nil => rfl
  | cons a tail ih =>
    by_cases hb : (a.name == n) = true
    · have hmb : (a.name == m) = false := by
        simp only [beq_eq_false_iff_ne, ne_eq]
        intro hc
        exact hnm (hc.symm.trans (eq_of_beq hb))
      simp only [replaceFirst, hb, if_true]
      have hmb' : (e'.name == m) = false := by
        simp only [beq_eq_false_iff_ne, ne_eq, hname]
        exact fun hc => hnm hc.symm
      simp [childNamed, List.find?, hmb, hmb']
    · simp only [replaceFirst, hb, if_false, Bool.false_eq_true]
      by_cases hmb : (a.name == m) = true
      · simp [childNamed, List.find?, hmb]
      · have hmb' : (a.name == m) = false := by simpa using hmb
        simp only [childNamed, List.find?, hmb'] at ih ⊢
        exact ih

theorem removeOne_eq_none_of_missing : ∀ (p : List String) (es : List Entry),
    existsRel es p = false → removeOne es p = none
  | [], _, _ => rfl
  | [n], es, h => by
    simp only [existsRel] at h
    simp only [removeOne, h, Bool.false_eq_true, if_false]
  | n :: r :: rest, es, h => by
    simp only [existsRel] at h
    simp only [removeOne]
    rcases hcn : childNamed es n with - | e
    · rfl
    · cases e with
      | file nm c => rfl
      | symlink nm => rfl
      | dir nm cs =>
        rw [hcn] at h
        simp only at h
        show (removeOne cs (r :: rest)).map (fun cs' => replaceFirst es n (Entry.dir n cs'))
          = none
        rw [removeOne_eq_none_of_missing (r :: rest) cs h]
        rfl

theorem existsRel_mono_remove : ∀ (q : List String) (es es' : List Entry),
    removeOne es q = some es' →
      ∀ (p : List String), existsRel es' p = true → existsRel es p = true
  | [], es, es', hrm => by simp [removeOne] at hrm
  | [n], es, es', hrm => by
    simp only [removeOne] at hrm
    split at hrm
    · rename_i hcont
      injection hrm with hrm
      subst hrm
      intro p hex
      match p with
      | [] => rfl
      | [m] =>
        simp only [existsRel] at hex ⊢
        exact filter_names_sub es n m hex
      | m :: r2 :: rest2 =>
        simp only [existsRel] at hex ⊢
        by_cases hmn : m = n
        · subst hmn
          rw [childNamed_filter_self es m] at hex
          simp at hex
        · rw [childNamed_filter_ne es n m hmn] at hex
          exact hex
    · exact absurd hrm (by simp)
  | n :: r :: rest, es, es', hrm => by
    simp only [removeOne] at hrm
    rcases hcn : childNamed es n with - | e
    · rw [hcn] at hrm
      exact Option.noConfusion hrm
    · cases e with
      | file nm c =>
        rw [hcn] at hrm
        exact Option.noConfusion hrm
      | symlink nm =>
        rw [hcn] at hrm
        exact Option.noConfusion hrm
      | dir nm cs =>
        rw [hcn] at hrm
        simp only at hrm
        rcases hrm2 : removeOne cs (r :: rest) with - | cs'
        · rw [hrm2] at hrm
          exact Option.noConfusion hrm
        · rw [hrm2] at hrm
          have hrm' : removeOne cs (r :: rest) = some cs' := hrm2
          have hes : replaceFirst es n (Entry.dir n cs') = es' := by
            have hsome : some (replaceFirst es n (Entry.dir n cs')) = some es' := hrm
            injection hsome
          subst hes
          intro p hex
          match p with
          | [] => rfl
          | [m] =>
            simp only [existsRel] at hex ⊢
            rwa [replaceFirst_names es n (Entry.dir n cs') rfl] at hex
          | m :: r2 :: rest2 =>
            simp only [existsRel] at hex ⊢
            by_cases hmn : m = n
            · subst hmn
              rw [childNamed_replaceFirst_self es m (Entry.dir m cs') rfl _ hcn] at hex
              rw [hcn]
              exact existsRel_mono_remove (r :: rest) cs cs' hrm' (r2 :: rest2) hex
            · rwa [childNamed_replaceFirst_ne es n m (Entry.dir n cs') rfl hmn] at hex

theorem removeAll_eq_none (remove : List (List String)) : ∀ (es : List Entry)
    (p : List String), p ∈ remove → existsRel es p = false → removeAll es remove = none := by
  induction remove with
  | nil => intro es p hmem; cases hmem
  | cons q ps ih =>
    intro es p hmem hmiss
    simp only [removeAll]
    rcases hrm : removeOne es q with - | es'
    · rfl
    · rcases List.mem_cons.mp hmem with rfl | hmem'
      · rw [removeOne_eq_none_of_missing p es hmiss] at hrm
        cases hrm
      · refine ih es' p hmem' ?_
        cases hex : existsRel es' p with
        | false => rfl
        | true =>
          rw [existsRel_mono_remove q es es' hrm p hex] at hmiss
          cases hmiss

/-- C10: when some relative path listed in the remove configuration does
not exist under the bundle, the removal phase fails (the recursive `rm`
has no force/ignore-missing option) and the run aborts before the signing
walk starts, so no artifact is signed. -/
theorem remove_missing_path_aborts (signed : List String → Bool) (root : List String)
    (es : List Entry) (remove : List (List String)) (p : List String)
    (hmem : p ∈ remove) (hmiss : existsRel es p = false) :
    removeAll es remove = none
    ∧ runRemovalThenWalk signed root es remove = none := by
  have h := removeAll_eq_none remove es p hmem hmiss
  exact ⟨h, by simp [runRemovalThenWalk, h]⟩

/-- Witness for C10: removing `Contents/Resources/unused.txt` from a
bundle that does not contain it aborts the run. -/
theorem remove_missing_path_aborts_witness :
    removeAll [Entry.dir "Contents" [Entry.file "a" (some [0, 0, 0, 0])]]
      [["Contents", "Resources", "unused.txt"]] = none
    ∧ runRemovalThenWalk (fun _ => false) ["R.app"]
        [Entry.dir "Contents" [Entry.file "a" (some [0, 0, 0, 0])]]
        [["Contents", "Resources", "unused.txt"]] = none :=
  remove_missing_path_aborts (fun _ => false) ["R.app"]
    [Entry.dir "Contents" [Entry.file "a" (some [0, 0, 0, 0])]]
    [["Contents", "Resources", "unused.txt"]] ["Contents", "Resources", "unused.txt"]
    (by decide) (by decide)

/-- C3 counterexample: on the declaration `{k: ["${AC_TEAMID}"]}` with the
environment value set to `TEAM`, the evaluator does NOT produce
`{k: ["TEAM"]}` (as the claim's uniform recursion rule would require, and
as the spec-described evaluator does): the sequence element is handed to
`evaluateConstraints` itself, whose `_.mapValues` explodes the string into
a character-indexed mapping instead of substituting it. -/
theorem evaluateConstraints_claim_counterexample :
    evaluateConstraints (some "TEAM")
        (PValue.obj (PFields.cons "k"
          (PValue.arr (PList.cons (PValue.str "${AC_TEAMID}") PList.nil)) PFields.nil))
      ≠ PValue.obj (PFields.cons "k"
          (PValue.arr (PList.cons (PValue.str "TEAM") PList.nil)) PFields.nil)
    ∧ specEvalValue (some "TEAM")
        (PValue.obj (PFields.cons "k"
          (PValue.arr (PList.cons (PValue.str "${AC_TEAMID}") PList.nil)) PFields.nil))
      = PValue.obj (PFields.cons "k"
          (PValue.arr (PList.cons (PValue.str "TEAM") PList.nil)) PFields.nil) := by
  refine ⟨?_, by rfl⟩
  intro h
  injection h with h1
  injection h1 with hk hv hrest
  injection hv with h2
  injection h2 with h3 h4
  exact PValue.noConfusion h3

mutual
theorem evalValue_eq_spec (env : Option String) (v : PValue)
    (h : seqElemsObj v = true) : evalValue env v = specEvalValue env v := by
  cases v with
  | str s => rfl
  | num n => rfl
  | bool b => rfl
  | arr vs =>
    simp only [seqElemsObj] at h
    simp only [evalValue, specEvalValue]
    rw [evalElems_eq_spec env vs h]
  | obj kvs =>
    simp only [seqElemsObj] at h
    simp only [evalValue, specEvalValue]
    rw [evalFields_eq_spec env kvs h]

theorem evalFields_eq_spec (env : Option String) (kvs : PFields)
    (h : seqElemsObjFields kvs = true) : evalFields env kvs = specEvalFields env kvs := by
  cases kvs with
  | nil => rfl
  | cons k v rest =>
    simp only [seqElemsObjFields, Bool.and_eq_true] at h
    simp only [evalFields, specEvalFields]
    rw [evalValue_eq_spec env v h.1, evalFields_eq_spec env rest h.2]

theorem evalElems_eq_spec (env : Option String) (vs : PList)
    (h : seqElemsObjElems vs = true) : evalElems env vs = specEvalElems env vs := by
  cases vs with
  | nil => rfl
  | cons v rest =>
    simp only [seqElemsObjElems, Bool.and_eq_true] at h
    obtain ⟨⟨hobj, hv⟩, hrest⟩ := h
    simp only [evalElems, specEvalElems]
    rw [evalElems_eq_spec env rest hrest]
    cases v with
    | str s => cases hobj
    | num n => cases hobj
    | bool b => cases hobj
    | arr ws => cases hobj
    | obj kvs =>
      simp only [seqElemsObj] at hv
      simp only [evaluateConstraints, specEvalValue]
      rw [evalFields_eq_spec env kvs hv]
end

/-- C3 (amended): the claimed substitution rule — replace the placeholder
at every string leaf (environment value when set and non-empty, literal
otherwise), recurse through mappings and sequences, pass other values
through — holds for every declaration whose sequence elements are all
mappings.  In general a sequence element is processed as if it were a
mapping, so a string element inside a sequence is exploded instead of
substituted. -/
theorem evaluateConstraints_amended (env : Option String) :
    (∀ kvs : PFields, seqElemsObjFields kvs = true →
      evaluateConstraints env (PValue.obj kvs) = specEvalValue env (PValue.obj kvs))
    ∧ evaluateConstraints (some "TEAM")
        (PValue.obj (PFields.cons "k" (PValue.str "${AC_TEAMID}") PFields.nil))
      = PValue.obj (PFields.cons "k" (PValue.str "TEAM") PFields.nil)
    ∧ evaluateConstraints none
        (PValue.obj (PFields.cons "k" (PValue.str "${AC_TEAMID}") PFields.nil))
      = PValue.obj (PFields.cons "k" (PValue.str "${AC_TEAMID}") PFields.nil)
    ∧ evaluateConstraints (some "")
        (PValue.obj (PFields.cons "k" (PValue.str "${AC_TEAMID}") PFields.nil))
      = PValue.obj (PFields.cons "k" (PValue.str "${AC_TEAMID}") PFields.nil) := by
  refine ⟨?_, by rfl, by rfl, by rfl⟩
  intro kvs h
  simp only [evaluateConstraints, specEvalValue]
  rw [evalFields_eq_spec env kvs h]

theorem beBytes_length (k : Nat) : ∀ n : Nat, (beBytes k n).length = k := by
  induction k with
  | zero => intro n; rfl
  | succ k ih => intro n; simp [beBytes, ih]

theorem beBytes_lt (k : Nat) : ∀ (n : Nat), ∀ b ∈ beBytes k n, b < 256 := by
  induction k with
  | zero => intro n b hb; simp [beBytes] at hb
  | succ k ih =>
    intro n b hb
    simp only [beBytes, List.mem_append, List.mem_singleton] at hb
    rcases hb with hb | rfl
    · exact ih (n / 256) b hb
    · exact Nat.mod_lt _ (by norm_num)

theorem sha256Bytes_length (s : String) : (sha256Bytes s).length = 32 := by
  simp [sha256Bytes, beBytes_length]

theorem sha256Bytes_lt (s : String) : ∀ b ∈ sha256Bytes s, b < 256 := by
  intro b hb
  simp only [sha256Bytes, List.mem_append] at hb
  rcases hb with ((((((hb | hb) | hb) | hb) | hb) | hb) | hb) | hb <;>
    exact beBytes_lt 4 _ b hb

theorem b64urlEncode_length : ∀ bs : List Nat, (b64urlEncode bs).length
    = 4 * (bs.length / 3) + (if bs.length % 3 = 0 then 0 else bs.length % 3 + 1)
  | [] => by simp [b64urlEncode]
  | [b0] => by simp [b64urlEncode]
  | [b0, b1] => by simp [b64urlEncode]
  | b0 :: b1 :: b2 :: rest => by
    simp only [b64urlEncode, List.length_cons]
    rw [b64urlEncode_length rest]
    have e1 : (rest.length + 1 + 1 + 1) % 3 = rest.length % 3 := by omega
    have e2 : (rest.length + 1 + 1 + 1) / 3 = rest.length / 3 + 1 := by omega
    rw [e1, e2]
    by_cases h0 : rest.length % 3 = 0 <;> simp [h0] <;> omega

theorem fileHash_length (s : String) : (fileHash s).length = 43 := by
  show (b64urlEncode (sha256Bytes s)).length = 43
  rw [b64urlEncode_length, sha256Bytes_length]
  norm_num

/-- A path's hashed identity (43 characters) is never the identity
`"default"` (7 characters). -/
theorem fileHash_ne_default (p : String) : fileHash p ≠ "default" := by
  intro h
  have hlen := congrArg String.length h
  rw [fileHash_length p] at hlen
  rw [show ("default" : String).length = 7 from rfl] at hlen
  exact absurd hlen (by norm_num)

theorem foldl_base256_lt : ∀ (bs : List Nat) (acc : Nat), (∀ b ∈ bs, b < 256) →
    bs.foldl (fun a b => a * 256 + b) acc < (acc + 1) * 256 ^ bs.length
  | [], acc, _ => by simp
  | b :: bs, acc, h => by
    simp only [List.foldl_cons, List.length_cons]
    have hb : b < 256 := h b (by simp)
    have ih := foldl_base256_lt bs (acc * 256 + b) (fun x hx => h x (by simp [hx]))
    have h1 : acc * 256 + b + 1 ≤ (acc + 1) * 256 := by omega
    calc List.foldl (fun a b => a * 256 + b) (acc * 256 + b) bs
        < (acc * 256 + b + 1) * 256 ^ bs.length := ih
      _ ≤ ((acc + 1) * 256) * 256 ^ bs.length := Nat.mul_le_mul_right _ h1
      _ = (acc + 1) * 256 ^ (bs.length + 1) := by ring

theorem foldl_base256_split : ∀ (bs : List Nat) (acc : Nat),
    bs.foldl (fun a b => a * 256 + b) acc
      = acc * 256 ^ bs.length + bs.foldl (fun a b => a * 256 + b) 0
  | [], acc => by simp
  | b :: bs, acc => by
    simp only [List.foldl_cons]
    rw [foldl_base256_split bs (acc * 256 + b), foldl_base256_split bs (0 * 256 + b)]
    simp only [List.length_cons]
    ring

theorem base256_inj : ∀ (bs cs : List Nat), bs.length = cs.length →
    (∀ b ∈ bs, b < 256) → (∀ c ∈ cs, c < 256) →
    bs.foldl (fun a b => a * 256 + b) 0 = cs.foldl (fun a b => a * 256 + b) 0 →
    bs = cs
  | [], [], _, _, _, _ => rfl
  | [], c :: cs, h, _, _, _ => by simp at h
  | b :: bs, [], h, _, _, _ => by simp at h
  | b :: bs, c :: cs, hlen, hb, hc, heq => by
    simp only [List.length_cons, Nat.add_right_cancel_iff] at hlen
    simp only [List.foldl_cons] at heq
    rw [foldl_base256_split bs (0 * 256 + b), foldl_base256_split cs (0 * 256 + c)] at heq
    rw [hlen] at heq
    have hvb := foldl_base256_lt bs 0 (fun x hx => hb x (by simp [hx]))
    have hvc := foldl_base256_lt cs 0 (fun x hx => hc x (by simp [hx]))
    rw [hlen] at hvb
    simp only [Nat.zero_mul, Nat.zero_add, Nat.zero_add, one_mul] at heq hvb hvc
    have hK : 0 < 256 ^ cs.length := pow_pos (by norm_num) _
    have hdiv := congrArg (fun x => x / 256 ^ cs.length) heq
    simp only at hdiv
    rw [Nat.mul_comm b _, Nat.mul_comm c _, Nat.mul_add_div hK, Nat.mul_add_div hK,
      Nat.div_eq_of_lt hvb, Nat.div_eq_of_lt hvc] at hdiv
    have hbc : b = c := by omega
    subst hbc
    have hrest : bs.foldl (fun a b => a * 256 + b) 0 = cs.foldl (fun a b => a * 256 + b) 0 := by
      omega
    rw [base256_inj bs cs hlen (fun x hx => hb x (by simp [hx]))
      (fun x hx => hc x (by simp [hx])) hrest]

/-- Equal digests-as-numbers mean equal digest byte lists. -/
theorem sha256Bytes_eq_of_digestNat (p q : String) (h : digestNat p = digestNat q) :
    sha256Bytes p = sha256Bytes q :=
  base256_inj _ _ (by rw [sha256Bytes_length, sha256Bytes_length])
    (sha256Bytes_lt p) (sha256Bytes_lt q) h

theorem digestNat_lt (p : String) : digestNat p < 256 ^ 32 := by
  have h := foldl_base256_lt (sha256Bytes p) 0 (sha256Bytes_lt p)
  rw [sha256Bytes_length] at h
  simpa [digestNat] using h

/-- C8 counterexample: the claim "distinct overridden paths get distinct
identities" fails: the identity is a function of the 32-byte SHA-256
digest, and infinitely many paths map into the finitely many digests, so
two distinct paths share an identity. -/
theorem fileHash_not_injective :
    ¬ ∀ p q : String, p ≠ q → fileHash p ≠ fileHash q := by
  intro hinj
  obtain ⟨p, q, hne, heq⟩ := Finite.exists_ne_map_eq_of_infinite digestFin
  have hval := congrArg Fin.val heq
  simp only [digestFin] at hval
  rw [Nat.mod_eq_of_lt (digestNat_lt p), Nat.mod_eq_of_lt (digestNat_lt q)] at hval
  exact hinj p q hne
    (congrArg (fun bs => String.mk (b64urlEncode bs)) (sha256Bytes_eq_of_digestNat p q hval))

theorem b64Char_inj : ∀ a < 64, ∀ b < 64, b64Char a = b64Char b → a = b := by decide

theorem b64urlEncode_inj : ∀ (bs cs : List Nat), (∀ b ∈ bs, b < 256) →
    (∀ c ∈ cs, c < 256) → b64urlEncode bs = b64urlEncode cs → bs = cs
  | [], [], _, _, _ => rfl
  | [], [c0], _, _, h => by simp [b64urlEncode] at h
  | [], [c0, c1], _, _, h => by simp [b64urlEncode] at h
  | [], c0 :: c1 :: c2 :: cs, _, _, h => by simp [b64urlEncode] at h
  | [b0], [], _, _, h => by simp [b64urlEncode] at h
  | [b0, b1], [], _, _, h => by simp [b64urlEncode] at h
  | b0 :: b1 :: b2 :: bs, [], _, _, h => by simp [b64urlEncode] at h
  | [b0], [c0, c1], _, _, h => by simp [b64urlEncode] at h
  | [b0, b1], [c0], _, _, h => by simp [b64urlEncode] at h
  | [b0], c0 :: c1 :: c2 :: cs, _, _, h => by simp [b64urlEncode] at h
  | b0 :: b1 :: b2 :: bs, [c0], _, _, h => by simp [b64urlEncode] at h
  | [b0, b1], c0 :: c1 :: c2 :: cs, _, _, h => by simp [b64urlEncode] at h
  | b0 :: b1 :: b2 :: bs, [c0, c1], _, _, h => by simp [b64urlEncode] at h
  | [b0], [c0], hb, hc, h => by
    have hb0 : b0 < 256 := hb b0 (by simp)
    have hc0 : c0 < 256 := hc c0 (by simp)
    simp only [b64urlEncode, List.cons.injEq, and_true] at h
    obtain ⟨h1, h2⟩ := h
    have e1 := b64Char_inj _ (by omega) _ (by omega) h1
    have e2 := b64Char_inj _ (by omega) _ (by omega) h2
    have : b0 = c0 := by omega
    rw [this]
  | [b0, b1], [c0, c1], hb, hc, h => by
    have hb0 : b0 < 256 := hb b0 (by simp)
    have hb1 : b1 < 256 := hb b1 (by simp)
    have hc0 : c0 < 256 := hc c0 (by simp)
    have hc1 : c1 < 256 := hc c1 (by simp)
    simp only [b64urlEncode, List.cons.injEq, and_true] at h
    obtain ⟨h1, h2, h3⟩ := h
    have e1 := b64Char_inj _ (by omega) _ (by omega) h1
    have e2 := b64Char_inj _ (by omega) _ (by omega) h2
    have e3 := b64Char_inj _ (by omega) _ (by omega) h3
    have hb0c : b0 = c0 := by omega
    have hb1c : b1 = c1 := by omega
    rw [hb0c, hb1c]
  | b0 :: b1 :: b2 :: bs, c0 :: c1 :: c2 :: cs, hb, hc, h => by
    have hb0 : b0 < 256 := hb b0 (by simp)
    have hb1 : b1 < 256 := hb b1 (by simp)
    have hb2 : b2 < 256 := hb b2 (by simp)
    have hc0 : c0 < 256 := hc c0 (by simp)
    have hc1 : c1 < 256 := hc c1 (by simp)
    have hc2 : c2 < 256 := hc c2 (by simp)
    simp only [b64urlEncode, List.cons.injEq] at h
    obtain ⟨h1, h2, h3, h4, h5⟩ := h
    have e1 := b64Char_inj _ (by omega) _ (by omega) h1
    have e2 := b64Char_inj _ (by omega) _ (by omega) h2
    have e3 := b64Char_inj _ (by omega) _ (by omega) h3
    have e4 := b64Char_inj _ (by omega) _ (by omega) h4
    have hb0c : b0 = c0 := by omega
    have hb1c : b1 = c1 := by omega
    have hb2c : b2 = c2 := by omega
    rw [hb0c, hb1c, hb2c,
      b64urlEncode_inj bs cs (fun x hx => hb x (by simp [hx]))
        (fun x hx => hc x (by simp [hx])) h5]

/-- Equal identities come exactly from equal digests. -/
theorem fileHash_eq_iff_digest_eq (p q : String) :
    fileHash p = fileHash q ↔ sha256Bytes p = sha256Bytes q := by
  constructor
  · intro h
    have hdata : b64urlEncode (sha256Bytes p) = b64urlEncode (sha256Bytes q) :=
      congrArg String.data h
    exact b64urlEncode_inj _ _ (sha256Bytes_lt p) (sha256Bytes_lt q) hdata
  · intro h
    exact congrArg (fun bs => String.mk (b64urlEncode bs)) h

/-- C8 (amended): for a relative path lying in exactly one override's path
set, the resolved entitlement set is that override's set and the resolved
identity is the base64url SHA-256 hash of the relative path — a pure
function of the path alone, hence identical on every run; identities are
never `"default"`; and two paths receive the same identity exactly when
their SHA-256 digests collide, so distinct overridden paths get distinct
identities unless their digests collide (which, by the counterexample,
some distinct paths do). -/
theorem override_identity_resolution (cfg : Entitlements) (relPath : String) (o : Override)
    (hmem : o ∈ cfg.overrides) (hpath : relPath ∈ o.paths)
    (huniq : ∀ o' ∈ cfg.overrides, relPath ∈ o'.paths → o' = o) :
    resolveEntitlements cfg relPath = (fileHash relPath, o.entitlements)
    ∧ (∀ p : String, fileHash p ≠ "default")
    ∧ (∀ p q : String, fileHash p = fileHash q ↔ sha256Bytes p = sha256Bytes q) := by
  refine ⟨?_, fileHash_ne_default, fileHash_eq_iff_digest_eq⟩
  have hfind : findOverride cfg relPath = some o := by
    unfold findOverride
    rcases hf : cfg.overrides.find? (fun o' => o'.paths.contains relPath) with - | o'
    · have hall := List.find?_eq_none.mp hf o hmem
      simp only [List.elem_iff] at hall
      exact absurd hpath hall
    · have hmem' := List.mem_of_find?_eq_some hf
      have hpred := List.find?_some hf
      simp only [List.elem_iff] at hpred
      rw [hf, huniq o' hmem' hpred]
  rw [resolveEntitlements, hfind]

/-- Witness for C8: the spec's Example 4 configuration resolves the
overridden framework binary to the override's set under its hashed
identity. -/
theorem override_identity_resolution_witness :
    resolveEntitlements
        ⟨["com.apple.security.bar"],
         [⟨["Contents/Frameworks/A.framework/A"], ["com.apple.security.foo"]⟩]⟩
        "Contents/Frameworks/A.framework/A"
      = (fileHash "Contents/Frameworks/A.framework/A", ["com.apple.security.foo"]) :=
  (override_identity_resolution
    ⟨["com.apple.security.bar"],
     [⟨["Contents/Frameworks/A.framework/A"], ["com.apple.security.foo"]⟩]⟩
    "Contents/Frameworks/A.framework/A"
    ⟨["Contents/Frameworks/A.framework/A"], ["com.apple.security.foo"]⟩
    (by decide) (by decide) (by decide)).1

theorem runWrites_fold (cfg : Entitlements) : ∀ (ps : List String) (st : RunState),
    ((ps.foldl (stepArtifact cfg) st).wroteDefault
        = (st.wroteDefault || ps.any (fun p => (findOverride cfg p).isNone)))
    ∧ ((ps.foldl (stepArtifact cfg) st).writes.count "default"
        = st.writes.count "default"
          + (if st.wroteDefault then 0
             else if ps.any (fun p => (findOverride cfg p).isNone) then 1 else 0))
  | [], st => by simp
  | p :: ps, st => by
    simp only [List.foldl_cons, List.any_cons]
    obtain hf | ⟨o, hf⟩ := Option.eq_none_or_eq_some (findOverride cfg p)
    · simp only [hf, Option.isNone_none, Bool.true_or]
      cases hwd : st.wroteDefault with
      | false =>
        have hstep : stepArtifact cfg st p = ⟨true, st.writes ++ ["default"]⟩ := by
          simp [stepArtifact, resolveEntitlements, hf, hwd]
        rw [hstep]
        obtain ⟨ha, hb⟩ := runWrites_fold cfg ps ⟨true, st.writes ++ ["default"]⟩
        rw [ha, hb]
        simp [hwd, List.count_append]
      | true =>
        have hstep : stepArtifact cfg st p = st := by
          simp [stepArtifact, resolveEntitlements, hf, hwd]
        rw [hstep]
        obtain ⟨ha, hb⟩ := runWrites_fold cfg ps st
        rw [ha, hb]
        simp [hwd]
    · have hne : (fileHash p == "default") = false := by
        rw [beq_eq_false_iff_ne]
        exact fileHash_ne_default p
      have hstep : stepArtifact cfg st p = ⟨st.wroteDefault, st.writes ++ [fileHash p]⟩ := by
        simp [stepArtifact, resolveEntitlements, hf, bne, hne]
      rw [hstep]
      obtain ⟨ha, hb⟩ := runWrites_fold cfg ps ⟨st.wroteDefault, st.writes ++ [fileHash p]⟩
      rw [ha, hb]
      simp only [hf, Option.isNone_some, Bool.false_or]
      refine ⟨by trivial, ?_⟩
      rw [List.count_append]
      simp [List.count_singleton, hne]

/-- C4: every artifact whose relative path matches no override resolves to
the entitlement identity `"default"`; and across the whole run the default
entitlement file is written exactly once when at least one such artifact
is signed — no matter how many there are, the
`wroteDefaultEntitlements` flag suppressing every later write — and zero
times when there is none. -/
theorem default_entitlements_once (cfg : Entitlements) (relPaths : List String) :
    (∀ p : String, findOverride cfg p = none → (resolveEntitlements cfg p).1 = "default")
    ∧ ((runWrites cfg relPaths).writes.count "default"
        = if relPaths.any (fun p => (findOverride cfg p).isNone) then 1 else 0) := by
  constructor
  · intro p h
    simp [resolveEntitlements, h]
  · have h := (runWrites_fold cfg relPaths ⟨false, []⟩).2
    simpa [runWrites] using h

/-- Witness for C4: with one override for path `A`, path `B` resolves to
`default`, and a run over `[B, A, C]` writes the default file once. -/
theorem default_entitlements_once_witness :
    (resolveEntitlements ⟨["com.apple.security.bar"], [⟨["A"], ["foo"]⟩]⟩ "B").1 = "default"
    ∧ (runWrites ⟨["com.apple.security.bar"], [⟨["A"], ["foo"]⟩]⟩
        ["B", "A", "C"]).writes.count "default" = 1 := by
  constructor
  · exact (default_entitlements_once ⟨["com.apple.security.bar"], [⟨["A"], ["foo"]⟩]⟩
      ["B", "A", "C"]).1 "B" (by rfl)
  · rw [(default_entitlements_once ⟨["com.apple.security.bar"], [⟨["A"], ["foo"]⟩]⟩
      ["B", "A", "C"]).2]
    rfl

/-- Witness for C3's amended theorem: a concrete declaration whose only
sequence holds a mapping is evaluated exactly as the spec's rule says. -/
theorem evaluateConstraints_amended_witness :
    seqElemsObjFields (PFields.cons "a"
        (PValue.arr (PList.cons
          (PValue.obj (PFields.cons "b" (PValue.str "${AC_TEAMID}") PFields.nil))
          PList.nil)) PFields.nil) = true
    ∧ evaluateConstraints (some "TEAM")
        (PValue.obj (PFields.cons "a"
          (PValue.arr (PList.cons
            (PValue.obj (PFields.cons "b" (PValue.str "${AC_TEAMID}") PFields.nil))
            PList.nil)) PFields.nil))
      = specEvalValue (some "TEAM")
        (PValue.obj (PFields.cons "a"
          (PValue.arr (PList.cons
            (PValue.obj (PFields.cons "b" (PValue.str "${AC_TEAMID}") PFields.nil))
            PList.nil)) PFields.nil)) :=
  ⟨by rfl, (evaluateConstraints_amended (some "TEAM")).1 _ (by rfl)⟩

end SignMacos
